import Mathlib

/-!
Verification of the reconciliation core of `src/compare_payments.py`.

The embedding models the pure reconciliation pipeline of the script:
`parse_amount`, `parse_id_from_file1`, `parse_id_from_file2`, the two
per-source aggregators `prepare_file1` / `prepare_file2` (their pandas
column arithmetic, row filtering and `groupby(...).agg(...)`), and
`compare` with its inner `get_status`, outer merge, sorting and summary.

Modelling conventions:
* A spreadsheet cell is `Cell`: `absent` (Python `None` / float NaN, as
  produced by `pd.read_excel` for empty cells) or `val s` where `s` is the
  `str()` rendering of the stored value.  `str()` of an absent cell is
  `"nan"` (the string of float NaN, which is what `astype(str)` yields).
* Python strings are Lean `String`s; single-character `str.replace`,
  `str.strip`, `str.split(",")[0]` are modelled on the underlying char
  lists (`replace(" ", "")` is a filter, `replace(",", ".")` a map,
  `strip()` drops leading/trailing whitespace, `split(",")[0]` is
  `takeWhile (· ≠ ',')`).  Whitespace and the regex class `\d` are
  modelled over ASCII.
* `decimal.Decimal` finite values are `Dec`: an integer mantissa and a
  decimal scale, with value `num / 10 ^ scale`.  Construction from a
  string follows the documented numeric-string grammar (optional sign,
  digits with an optional fractional part, optional exponent, after
  stripping whitespace and underscores).  Special values (NaN/Infinity)
  and context-precision rounding of arithmetic are outside the model's
  scope; `Decimal` equality, addition and subtraction are value-exact
  here, matching the exact-decimal reading of the code.
* pandas `groupby` (with its default ascending key sort), the outer
  `merge` on `company_id` followed by `sort_values(by=["company_id"])`,
  `fillna(Decimal("0"))`, and `agg("first")` (first value in scan order;
  the aggregated name columns never hold nulls) are modelled directly:
  an aggregated table has one row per distinct key, keys ascending in
  Python's string order (lexicographic by code point).
* The final column renaming in `compare` and everything in
  `write_report` (floating-point conversion for display, styling) are
  outside the modelled core, as is file I/O: the raw tables are inputs.
-/

namespace ComparePayments

/-- ASCII digit, the model of the regex class `\d` and of the digits of the
decimal numeric-string grammar. -/
def isDig (c : Char) : Bool := decide (48 ≤ c.toNat ∧ c.toNat ≤ 57)

/-- ASCII whitespace, the model of the character class stripped by Python's
`str.strip()` and by the `Decimal` constructor. -/
def isWs (c : Char) : Bool :=
  decide (c.toNat = 32 ∨ c.toNat = 9 ∨ c.toNat = 10 ∨ c.toNat = 11 ∨ c.toNat = 12 ∨ c.toNat = 13)

/-- Drop the trailing run of characters satisfying `p`. -/
def dropTrailing (p : Char → Bool) (l : List Char) : List Char :=
  (l.reverse.dropWhile p).reverse

/-- Python `str.strip()`: remove leading and trailing whitespace. -/
def stripChars (l : List Char) : List Char :=
  dropTrailing isWs (l.dropWhile isWs)

/-- Characterwise effect of `str.replace(",", ".")`. -/
def commaDot (c : Char) : Char := if c = ',' then '.' else c

/-- Exact decimal number: the value `num / 10 ^ scale`.  This is the value
content of a finite `decimal.Decimal`. -/
structure Dec where
  num : Int
  scale : Nat
deriving DecidableEq

/-- The decimal zero, `Decimal("0")`. -/
def Dec.zero : Dec := ⟨0, 0⟩

/-- Rational value of an exact decimal. -/
def Dec.toRat (d : Dec) : ℚ := (d.num : ℚ) / (10 : ℚ) ^ d.scale

/-- Exact decimal addition (align scales, add mantissas). -/
def Dec.add (a b : Dec) : Dec :=
  ⟨a.num * (10 : Int) ^ (max a.scale b.scale - a.scale) +
      b.num * (10 : Int) ^ (max a.scale b.scale - b.scale),
    max a.scale b.scale⟩

/-- Exact decimal negation. -/
def Dec.neg (a : Dec) : Dec := ⟨-a.num, a.scale⟩

/-- Exact decimal subtraction. -/
def Dec.sub (a b : Dec) : Dec := a.add b.neg

/-- Value equality of exact decimals (`Decimal.__eq__` compares values,
so `Decimal("0.00") == Decimal("0")`). -/
def Dec.beq (a b : Dec) : Bool :=
  decide (a.num * (10 : Int) ^ b.scale = b.num * (10 : Int) ^ a.scale)

/-- Numeric value of a list of ASCII digits. -/
def digitsToNat (l : List Char) : Nat :=
  l.foldl (fun n c => 10 * n + (c.toNat - 48)) 0

/-- Split an optional leading sign; `true` means negative. -/
def splitSign : List Char → Bool × List Char
  | '-' :: cs => (true, cs)
  | '+' :: cs => (false, cs)
  | cs => (false, cs)

/-- Exponent suffix of the decimal grammar: empty, or `e`/`E`, an optional
sign and a nonempty digit run reaching the end of the string. -/
def expPart : List Char → Option Int
  | [] => some 0
  | c :: cs =>
    if c = 'e' ∨ c = 'E' then
      if (splitSign cs).2.takeWhile isDig ≠ [] ∧ (splitSign cs).2.dropWhile isDig = [] then
        some
          (if (splitSign cs).1 then -(digitsToNat ((splitSign cs).2.takeWhile isDig) : Int)
           else (digitsToNat ((splitSign cs).2.takeWhile isDig) : Int))
      else none
    else none

/-- Build the exact decimal `± coeff * 10 ^ e`. -/
def decOfParts (neg : Bool) (coeff : Nat) (e : Int) : Dec :=
  match e with
  | .ofNat n => ⟨(if neg then -(coeff : Int) else (coeff : Int)) * (10 : Int) ^ n, 0⟩
  | .negSucc n => ⟨(if neg then -(coeff : Int) else (coeff : Int)), n + 1⟩

/-- Split the fractional part: a leading `.` takes the following digit run,
anything else leaves the input untouched with no fractional digits. -/
def fracSplit : List Char → List Char × List Char
  | '.' :: rest => (rest.takeWhile isDig, rest.dropWhile isDig)
  | l => ([], l)

/-- Numeric-string grammar of the `Decimal` constructor (finite values):
`sign? (digits (. digits?)? | . digits) ([eE] sign? digits)?`. -/
def decGrammar (l : List Char) : Option Dec :=
  if (splitSign l).2.takeWhile isDig = [] ∧
      (fracSplit ((splitSign l).2.dropWhile isDig)).1 = [] then none
  else
    match expPart (fracSplit ((splitSign l).2.dropWhile isDig)).2 with
    | none => none
    | some e =>
      some (decOfParts (splitSign l).1
        (digitsToNat ((splitSign l).2.takeWhile isDig ++
          (fracSplit ((splitSign l).2.dropWhile isDig)).1))
        (e - ((fracSplit ((splitSign l).2.dropWhile isDig)).1.length : Int)))

/-- `Decimal(text)`: strip surrounding whitespace, drop underscores, then
apply the numeric-string grammar; `none` models `InvalidOperation`. -/
def decParse (l : List Char) : Option Dec :=
  decGrammar ((stripChars l).filter (fun c => c ≠ '_'))

/-- A raw spreadsheet cell: missing (`None`/NaN) or its `str()` rendering. -/
inductive Cell where
  | absent : Cell
  | val : String → Cell
deriving DecidableEq

/-- `pd.notna` on a cell. -/
def notna : Cell → Bool
  | .absent => false
  | .val _ => true

/-- `str(x)` of a cell; a missing cell is float NaN whose `str()` is `"nan"`. -/
def cellToStr : Cell → String
  | .absent => "nan"
  | .val s => s

/-- `parse_amount` (`src/compare_payments.py:25`): `None`/NaN gives absent;
otherwise stringify, strip, delete spaces, reject empty, turn commas into
periods and parse as an exact decimal, with parse failure giving absent. -/
def parse_amount : Cell → Option Dec
  | .absent => none
  | .val s =>
    let text := (stripChars s.data).filter (fun c => c ≠ ' ')
    if text = [] then none
    else decParse (text.map commaDot)

/-- Leftmost match of the regex `\[(\d+)\]`, returning the digit group:
scan for a `[` followed by a nonempty digit run followed by `]`. -/
def bracketSearch : List Char → Option String
  | [] => none
  | c :: rest =>
    if c = '[' then
      if rest.takeWhile isDig ≠ [] ∧ (rest.dropWhile isDig).head? = some ']' then
        some ⟨rest.takeWhile isDig⟩
      else bracketSearch rest
    else bracketSearch rest

/-- `parse_id_from_file1` (`src/compare_payments.py:41`): digits inside the
first bracket pair of the stringified field, absent when missing or no match. -/
def parse_id_from_file1 : Cell → Option String
  | .absent => none
  | .val s => bracketSearch s.data

/-- `parse_id_from_file2` (`src/compare_payments.py:48`): strip the
stringified field, reject blanks, return the trimmed text before the first
comma (`text.split(",")[0].strip()`). -/
def parse_id_from_file2 : Cell → Option String
  | .absent => none
  | .val s =>
    let text := stripChars s.data
    if text = [] then none
    else some ⟨stripChars (text.takeWhile (fun c => c ≠ ','))⟩

/-- A raw row of file 1 (columns C, D, AF after the fixed offsets). -/
structure Row1 where
  name_c : Cell
  name_d : Cell
  amount : Cell

/-- A raw row of file 2 (columns A, B, C, F after the fixed offsets). -/
structure Row2 where
  raw_id : Cell
  name_b : Cell
  name_c : Cell
  amount : Cell

/-- File 1 column fallback: `name_d.where(name_d.notna(), name_c)`. -/
def resolveRaw1 (r : Row1) : Cell := if notna r.name_d then r.name_d else r.name_c

/-- File 2 column fallback: `name_c.where(name_c.notna(), name_b)`. -/
def resolveRaw2 (r : Row2) : Cell := if notna r.name_c then r.name_c else r.name_b

/-- Python `str.strip()` on a string. -/
def pyStrip (s : String) : String := ⟨stripChars s.data⟩

/-- One kept row of a per-source working table: normalized identifier,
display name (`astype(str).str.strip()` of the resolved raw field) and
parsed amount. -/
structure SrcRow where
  id : String
  name : String
  amt : Option Dec

/-- Rows of file 1 that survive the `company_id.notna()` filter, with the
columns `prepare_file1` builds for them. -/
def srcRows1 (rows : List Row1) : List SrcRow :=
  rows.filterMap (fun r =>
    match parse_id_from_file1 (resolveRaw1 r) with
    | none => none
    | some cid =>
      some ⟨pyStrip cid, pyStrip (cellToStr (resolveRaw1 r)), parse_amount r.amount⟩)

/-- Rows of file 2 that survive the `company_id.notna()` filter, with the
columns `prepare_file2` builds for them. -/
def srcRows2 (rows : List Row2) : List SrcRow :=
  rows.filterMap (fun r =>
    match parse_id_from_file2 r.raw_id with
    | none => none
    | some cid =>
      some ⟨pyStrip cid, pyStrip (cellToStr (resolveRaw2 r)), parse_amount r.amount⟩)

/-- Python string `<=`: lexicographic by code point. -/
def strLeB : List Char → List Char → Bool
  | [], _ => true
  | _ :: _, [] => false
  | a :: as, b :: bs => if a = b then strLeB as bs else decide (a.toNat < b.toNat)

/-- Python string `<=` on strings. -/
def strLe (a b : String) : Bool := strLeB a.data b.data

/-- Insert a key into an ascending list of keys. -/
def orderedInsertKey (k : String) : List String → List String
  | [] => [k]
  | x :: xs => if strLe k x then k :: x :: xs else x :: orderedInsertKey k xs

/-- Ascending sort of keys, the model of pandas' key ordering
(`groupby` sorted keys / `sort_values` on a unique key column). -/
def sortKeys : List String → List String
  | [] => []
  | x :: xs => orderedInsertKey x (sortKeys xs)

/-- One row of an aggregated per-source table. -/
structure AggRow where
  company_id : String
  amount : Dec
  name : String

/-- One step of the group total: add a row's amount when the row belongs to
the group and its amount is present (`v is not None`). -/
def sumStep (k : String) (acc : Dec) (r : SrcRow) : Dec :=
  if r.id = k then
    match r.amt with
    | some v => acc.add v
    | none => acc
  else acc

/-- Group total: `sum((v for v in x if v is not None), Decimal("0"))` over
the rows of one identifier, in scan order. -/
def groupSum (rows : List SrcRow) (k : String) : Dec :=
  rows.foldl (sumStep k) Dec.zero

/-- Group display name: the `"first"` aggregator, the name of the first row
of the identifier in scan order (name cells are never null strings). -/
def firstName (rows : List SrcRow) (k : String) : String :=
  match rows.find? (fun r => r.id = k) with
  | some r => r.name
  | none => ""

/-- `groupby("company_id").agg(...)`: one output row per distinct
identifier, keys ascending. -/
def aggregate (rows : List SrcRow) : List AggRow :=
  (sortKeys ((rows.map (fun r => r.id)).dedup)).map
    (fun k => ⟨k, groupSum rows k, firstName rows k⟩)

/-- `prepare_file1` (`src/compare_payments.py:57`) on an already-read table. -/
def prepare_file1 (rows : List Row1) : List AggRow := aggregate (srcRows1 rows)

/-- `prepare_file2` (`src/compare_payments.py:90`) on an already-read table. -/
def prepare_file2 (rows : List Row2) : List AggRow := aggregate (srcRows2 rows)

/-- One row of the detail (comparison) table of `compare`. -/
structure DetailRow where
  company_id : String
  company_name_1 : Option String
  company_name_2 : Option String
  amount_1 : Dec
  amount_2 : Dec
  delta : Dec
  status : String
deriving DecidableEq

/-- `get_status` (`src/compare_payments.py:134`), evaluated on the merged
name columns and the exact delta. -/
def get_status (file1_name file2_name : String) (n1 n2 : Option String) (delta : Dec) :
    String :=
  if n1.isSome && n2.isSome then
    if delta.beq Dec.zero then "MATCH" else "MISMATCH"
  else if n1.isSome then "only_file_" ++ file1_name
  else "only_file_" ++ file2_name

/-- Row lookup of the outer merge: the aggregated row of a key, if any
(aggregated tables have one row per key). -/
def findAgg (t : List AggRow) (k : String) : Option AggRow :=
  t.find? (fun a => a.company_id = k)

/-- One merged detail row for a key: absent-side amounts filled with
`Decimal("0")`, names left absent, `delta = amount_1 - amount_2`, status
from `get_status`. -/
def mkDetailRow (f1 f2 : String) (left right : List AggRow) (k : String) : DetailRow :=
  let a1 := match findAgg left k with | some a => a.amount | none => Dec.zero
  let a2 := match findAgg right k with | some a => a.amount | none => Dec.zero
  let n1 := (findAgg left k).map (fun a => a.name)
  let n2 := (findAgg right k).map (fun a => a.name)
  ⟨k, n1, n2, a1, a2, a1.sub a2, get_status f1 f2 n1 n2 (a1.sub a2)⟩

/-- The detail table: outer merge on `company_id` followed by the ascending
`sort_values(by=["company_id"])`. -/
def detailTable (f1 f2 : String) (left right : List AggRow) : List DetailRow :=
  (sortKeys ((left.map (fun a => a.company_id) ++
      right.map (fun a => a.company_id)).dedup)).map
    (mkDetailRow f1 f2 left right)

/-- One row of the summary table of `compare`. -/
structure SummaryRow where
  status : String
  rows : Nat
  total_amount_1 : Dec
  total_amount_2 : Dec
  total_delta : Dec
deriving DecidableEq

/-- `sum(x, Decimal("0"))` over a column. -/
def sumDec (l : List Dec) : Dec := l.foldl Dec.add Dec.zero

/-- The summary table: group the detail rows by status (keys ascending),
count rows and total the three amount columns. -/
def summaryTable (detail : List DetailRow) : List SummaryRow :=
  (sortKeys ((detail.map (fun r => r.status)).dedup)).map
    (fun st =>
      ⟨st, (detail.filter (fun r => r.status = st)).length,
        sumDec ((detail.filter (fun r => r.status = st)).map (fun r => r.amount_1)),
        sumDec ((detail.filter (fun r => r.status = st)).map (fun r => r.amount_2)),
        sumDec ((detail.filter (fun r => r.status = st)).map (fun r => r.delta))⟩)

/-- `compare` (`src/compare_payments.py:123`) on already-read tables, with
the two report labels (`file1.name`, `file2.name`) passed explicitly. -/
def compare (file1_name file2_name : String) (rows1 : List Row1) (rows2 : List Row2) :
    List DetailRow × List SummaryRow :=
  let detail := detailTable file1_name file2_name (prepare_file1 rows1) (prepare_file2 rows2)
  (detail, summaryTable detail)

/-! Character-class facts. -/

theorem isDig_iff (c : Char) : isDig c = true ↔ 48 ≤ c.toNat ∧ c.toNat ≤ 57 := by
  simp [isDig]

theorem isWs_iff (c : Char) :
    isWs c = true ↔
      c.toNat = 32 ∨ c.toNat = 9 ∨ c.toNat = 10 ∨ c.toNat = 11 ∨ c.toNat = 12 ∨
        c.toNat = 13 := by
  simp [isWs]

theorem isDig_not_ws {c : Char} (h : isDig c = true) : isWs c = false := by
  rcases hw : isWs c
  · rfl
  · rw [isWs_iff] at hw
    rw [isDig_iff] at h
    omega

theorem isDig_ne_space {c : Char} (h : isDig c = true) : (c = ' ') = False := by
  simp only [eq_iff_iff, iff_false]
  intro hc
  subst hc
  exact absurd h (by decide)

theorem isDig_commaDot {c : Char} (h : isDig c = true) : commaDot c = c := by
  unfold commaDot
  split
  · rename_i hc
    subst hc
    exact absurd h (by decide)
  · rfl

theorem char_toNat_inj {a b : Char} (h : a.toNat = b.toNat) : a = b := by
  apply Char.ext
  apply UInt32.ext
  exact h

theorem char_lt_iff {a b : Char} : a < b ↔ a.toNat < b.toNat := by
  rw [Char.lt_def, UInt32.lt_def]
  exact Iff.rfl

/-! takeWhile / dropWhile / strip algebra. -/

theorem dropWhile_eq_self_of {α : Type} (p : α → Bool) (l : List α)
    (h : ∀ c ∈ l, p c = false) : l.dropWhile p = l := by
  cases l with
  | nil => rfl
  | cons a t => simp [List.dropWhile_cons, h a (List.mem_cons_self a t)]

theorem dropWhile_append_of_all {α : Type} (p : α → Bool) (a b : List α)
    (h : ∀ c ∈ a, p c = true) : (a ++ b).dropWhile p = b.dropWhile p := by
  induction a with
  | nil => rfl
  | cons x t ih =>
    rw [List.cons_append, List.dropWhile_cons, h x (List.mem_cons_self x t)]
    simp only [if_true]
    exact ih (fun c hc => h c (List.mem_cons_of_mem x hc))

theorem dropWhile_append_of_ne_nil {α : Type} (p : α → Bool) (a b : List α)
    (h : a.dropWhile p ≠ []) : (a ++ b).dropWhile p = a.dropWhile p ++ b := by
  induction a with
  | nil => exact absurd rfl h
  | cons x t ih =>
    rw [List.cons_append, List.dropWhile_cons, List.dropWhile_cons] at *
    by_cases hx : p x = true
    · simp only [hx, if_true] at h ⊢
      exact ih h
    · simp only [Bool.not_eq_true] at hx
      simp [hx]

theorem takeWhile_append_stop {α : Type} (p : α → Bool) (a : List α) (c : α) (b : List α)
    (ha : ∀ x ∈ a, p x = true) (hc : p c = false) :
    (a ++ c :: b).takeWhile p = a ∧ (a ++ c :: b).dropWhile p = c :: b := by
  induction a with
  | nil => simp [List.takeWhile_cons, List.dropWhile_cons, hc]
  | cons x t ih =>
    have hx := ha x (List.mem_cons_self x t)
    have ht := ih (fun y hy => ha y (List.mem_cons_of_mem x hy))
    constructor
    · rw [List.cons_append, List.takeWhile_cons, hx]
      simp [ht.1]
    · rw [List.cons_append, List.dropWhile_cons, hx]
      simp [ht.2]

theorem dropTrailing_eq_self_of (l : List Char) (h : ∀ c ∈ l, isWs c = false) :
    dropTrailing isWs l = l := by
  unfold dropTrailing
  rw [dropWhile_eq_self_of isWs l.reverse (fun c hc => h c (List.mem_reverse.mp hc))]
  exact l.reverse_reverse

theorem stripChars_eq_self_of (l : List Char) (h : ∀ c ∈ l, isWs c = false) :
    stripChars l = l := by
  unfold stripChars
  rw [dropWhile_eq_self_of isWs l h]
  exact dropTrailing_eq_self_of l h

theorem dropTrailing_append_of_all (X w : List Char) (h : ∀ c ∈ w, isWs c = true) :
    dropTrailing isWs (X ++ w) = dropTrailing isWs X := by
  unfold dropTrailing
  rw [List.reverse_append]
  rw [dropWhile_append_of_all isWs w.reverse X.reverse
    (fun c hc => h c (List.mem_reverse.mp hc))]

theorem stripChars_append_ws_left (w X : List Char) (h : ∀ c ∈ w, isWs c = true) :
    stripChars (w ++ X) = stripChars X := by
  unfold stripChars
  rw [dropWhile_append_of_all isWs w X h]

theorem dropWhile_eq_nil_of_all {α : Type} (p : α → Bool) (l : List α)
    (h : ∀ c ∈ l, p c = true) : l.dropWhile p = [] := by
  induction l with
  | nil => rfl
  | cons x t ih =>
    rw [List.dropWhile_cons, h x (List.mem_cons_self x t)]
    simp only [if_true]
    exact ih (fun c hc => h c (List.mem_cons_of_mem x hc))

theorem stripChars_append_ws_right (X w : List Char) (h : ∀ c ∈ w, isWs c = true) :
    stripChars (X ++ w) = stripChars X := by
  unfold stripChars
  by_cases hX : X.dropWhile isWs = []
  · have hXall : ∀ c ∈ X, isWs c = true := List.dropWhile_eq_nil_iff.mp hX
    rw [dropWhile_append_of_all isWs X w hXall, hX,
      dropWhile_eq_nil_of_all isWs w h]
  · rw [dropWhile_append_of_ne_nil isWs X w hX]
    exact dropTrailing_append_of_all _ w h

theorem exists_strip_decomp (l : List Char) :
    ∃ w1 w2, l = w1 ++ stripChars l ++ w2 ∧ (∀ c ∈ w1, isWs c = true) ∧
      (∀ c ∈ w2, isWs c = true) := by
  refine ⟨l.takeWhile isWs, (((l.dropWhile isWs).reverse).takeWhile isWs).reverse, ?_, ?_, ?_⟩
  · conv_lhs => rw [← List.takeWhile_append_dropWhile isWs l]
    rw [List.append_assoc]
    congr 1
    conv_lhs => rw [← (l.dropWhile isWs).reverse_reverse,
      ← List.takeWhile_append_dropWhile isWs (l.dropWhile isWs).reverse]
    rw [List.reverse_append]
    rfl
  · intro c hc
    exact List.mem_takeWhile_imp hc
  · intro c hc
    exact List.mem_takeWhile_imp (List.mem_reverse.mp hc)

theorem stripChars_filter_strip (q : Char → Bool) (l : List Char) :
    stripChars ((stripChars l).filter q) = stripChars (l.filter q) := by
  obtain ⟨w1, w2, hdec, h1, h2⟩ := exists_strip_decomp l
  conv_rhs => rw [hdec]
  rw [List.filter_append, List.filter_append]
  rw [stripChars_append_ws_right _ _
    (fun c hc => h2 c (List.mem_filter.mp hc).1)]
  rw [stripChars_append_ws_left _ _
    (fun c hc => h1 c (List.mem_filter.mp hc).1)]

theorem mem_dropWhile_of_not_p {α : Type} (p : α → Bool) {l : List α} {x : α}
    (hx : x ∈ l) (hpx : p x = false) : x ∈ l.dropWhile p := by
  induction l with
  | nil => cases hx
  | cons a t ih =>
    rw [List.dropWhile_cons]
    by_cases ha : p a = true
    · rw [ha]
      simp only [if_true]
      rcases List.mem_cons.mp hx with he | ht
      · rw [he] at hpx
        rw [hpx] at ha
        cases ha
      · exact ih ht
    · simp only [Bool.not_eq_true] at ha
      rw [ha]
      simpa using hx

theorem dropWhile_head_false {α : Type} (p : α → Bool) (l : List α) {x : α} {t : List α}
    (h : l.dropWhile p = x :: t) : p x = false := by
  induction l with
  | nil => cases h
  | cons a s ih =>
    rw [List.dropWhile_cons] at h
    by_cases ha : p a = true
    · rw [ha] at h
      simp only [if_true] at h
      exact ih h
    · simp only [Bool.not_eq_true] at ha
      rw [ha] at h
      simp only [Bool.false_eq_true, if_false, List.cons.injEq] at h
      rw [← h.1]
      exact ha

theorem dropWhile_idem {α : Type} (p : α → Bool) (l : List α) :
    (l.dropWhile p).dropWhile p = l.dropWhile p := by
  rcases hs : l.dropWhile p with _ | ⟨x, t⟩
  · rfl
  · rw [List.dropWhile_cons, dropWhile_head_false p l hs]
    simp

theorem dropTrailing_idem (p : Char → Bool) (l : List Char) :
    dropTrailing p (dropTrailing p l) = dropTrailing p l := by
  unfold dropTrailing
  rw [List.reverse_reverse, dropWhile_idem]

theorem dropTrailing_prefix (p : Char → Bool) (l : List Char) :
    dropTrailing p l ++ (l.reverse.takeWhile p).reverse = l := by
  unfold dropTrailing
  rw [← List.reverse_append, List.takeWhile_append_dropWhile, List.reverse_reverse]

theorem dropWhile_dropTrailing (p : Char → Bool) (l : List Char) :
    (dropTrailing p (l.dropWhile p)).dropWhile p = dropTrailing p (l.dropWhile p) := by
  rcases hs : dropTrailing p (l.dropWhile p) with _ | ⟨x, t⟩
  · rfl
  · have hpre := dropTrailing_prefix p (l.dropWhile p)
    rw [hs] at hpre
    have hx : p x = false := dropWhile_head_false p l hpre.symm
    rw [List.dropWhile_cons, hx]
    simp

theorem stripChars_idem (l : List Char) : stripChars (stripChars l) = stripChars l := by
  unfold stripChars
  rw [dropWhile_dropTrailing, dropTrailing_idem]

theorem dropWhile_append_mid {α : Type} (p : α → Bool) (a : List α) (c : α) (b : List α)
    (hc : p c = false) : (a ++ c :: b).dropWhile p = a.dropWhile p ++ c :: b := by
  by_cases ha : a.dropWhile p = []
  · rw [dropWhile_append_of_all p a (c :: b) (List.dropWhile_eq_nil_iff.mp ha), ha,
      List.dropWhile_cons, hc]
    simp
  · exact dropWhile_append_of_ne_nil p a (c :: b) ha

theorem dropTrailing_append_mid (p : Char → Bool) (a : List Char) (c : Char) (b : List Char)
    (hc : p c = false) : dropTrailing p (a ++ c :: b) = a ++ c :: dropTrailing p b := by
  unfold dropTrailing
  rw [show (a ++ c :: b).reverse = b.reverse ++ c :: a.reverse by
      rw [show c :: b = [c] ++ b from rfl, ← List.append_assoc, List.reverse_append,
        List.reverse_append]
      simp]
  rw [dropWhile_append_mid p b.reverse c a.reverse hc]
  rw [show c :: a.reverse = [c] ++ a.reverse from rfl, ← List.append_assoc,
    List.reverse_append, List.reverse_append]
  simp

theorem stripChars_append_mid (a : List Char) (c : Char) (b : List Char)
    (hc : isWs c = false) :
    stripChars (a ++ c :: b) = a.dropWhile isWs ++ c :: dropTrailing isWs b := by
  unfold stripChars
  rw [dropWhile_append_mid isWs a c b hc, dropTrailing_append_mid isWs _ c b hc]

theorem takeWhile_append_of_all {α : Type} (p : α → Bool) (a b : List α)
    (h : ∀ c ∈ a, p c = true) : (a ++ b).takeWhile p = a ++ b.takeWhile p := by
  induction a with
  | nil => rfl
  | cons x t ih =>
    rw [List.cons_append, List.takeWhile_cons, h x (List.mem_cons_self x t)]
    simp only [if_true]
    rw [ih (fun c hc => h c (List.mem_cons_of_mem x hc))]
    rfl

theorem takeWhile_append_of_ne_nil {α : Type} (p : α → Bool) (a b : List α)
    (h : a.dropWhile p ≠ []) : (a ++ b).takeWhile p = a.takeWhile p := by
  induction a with
  | nil => exact absurd rfl h
  | cons x t ih =>
    rw [List.dropWhile_cons] at h
    rw [List.cons_append, List.takeWhile_cons, List.takeWhile_cons]
    by_cases hx : p x = true
    · rw [hx] at h ⊢
      simp only [if_true] at h ⊢
      rw [ih h]
    · simp only [Bool.not_eq_true] at hx
      rw [hx]
      simp

theorem takeWhile_eq_self_of {α : Type} (p : α → Bool) (l : List α)
    (h : ∀ c ∈ l, p c = true) : l.takeWhile p = l := by
  induction l with
  | nil => rfl
  | cons x t ih =>
    rw [List.takeWhile_cons, h x (List.mem_cons_self x t)]
    simp only [if_true]
    rw [ih (fun c hc => h c (List.mem_cons_of_mem x hc))]

theorem mem_of_mem_stripChars {l : List Char} {c : Char} (h : c ∈ stripChars l) : c ∈ l := by
  obtain ⟨w1, w2, hdec, -, -⟩ := exists_strip_decomp l
  rw [hdec]
  simp only [List.mem_append]
  exact Or.inl (Or.inr h)

/-! Shape facts for the decimal grammar. -/

theorem splitSign_decomp (l : List Char) :
    (splitSign l).2 = l ∨ l = '-' :: (splitSign l).2 ∨ l = '+' :: (splitSign l).2 := by
  cases l with
  | nil => exact Or.inl rfl
  | cons c t =>
    rw [splitSign.eq_def]
    split
    · rename_i heq
      injection heq with h1 h2
      subst h1
      subst h2
      exact Or.inr (Or.inl rfl)
    · rename_i heq
      injection heq with h1 h2
      subst h1
      subst h2
      exact Or.inr (Or.inr rfl)
    · exact Or.inl rfl

theorem fracSplit_of_ne {c0 : Char} (h : c0 ≠ '.') (rest : List Char) :
    fracSplit (c0 :: rest) = ([], c0 :: rest) := by
  rw [fracSplit.eq_def]
  split
  · rename_i heq
    injection heq with h1 h2
    exact absurd h1 h
  · rfl

theorem mem_splitSign_snd {l : List Char} {c : Char} (hc : c ∈ l) (h1 : c ≠ '-')
    (h2 : c ≠ '+') : c ∈ (splitSign l).2 := by
  rcases splitSign_decomp l with hd | hd | hd
  · rw [hd]
    exact hc
  · rw [hd] at hc
    rcases List.mem_cons.mp hc with h | h
    · exact absurd h h1
    · exact h
  · rw [hd] at hc
    rcases List.mem_cons.mp hc with h | h
    · exact absurd h h2
    · exact h

theorem expPart_no_comma {r : List Char} {e : Int} (he : expPart r = some e)
    (hc : ',' ∈ r) : False := by
  cases r with
  | nil => exact absurd hc (List.not_mem_nil _)
  | cons c0 cs =>
    simp only [expPart] at he
    by_cases h0 : c0 = 'e' ∨ c0 = 'E'
    · rw [if_pos h0] at he
      by_cases hcond : (splitSign cs).2.takeWhile isDig ≠ [] ∧
          (splitSign cs).2.dropWhile isDig = []
      · have hall : ∀ x ∈ (splitSign cs).2, isDig x = true :=
          List.dropWhile_eq_nil_iff.mp hcond.2
        rcases List.mem_cons.mp hc with hc0 | hcs
        · rcases h0 with h | h <;> rw [← hc0] at h <;> exact absurd h (by decide)
        · have hmem : ',' ∈ (splitSign cs).2 :=
            mem_splitSign_snd hcs (by decide) (by decide)
          exact absurd (hall ',' hmem) (by decide)
      · rw [if_neg hcond] at he
        exact Option.noConfusion he
    · rw [if_neg h0] at he
      exact Option.noConfusion he

theorem decGrammar_comma_none (l : List Char) (hc : ',' ∈ l) : decGrammar l = none := by
  have hc1 : ',' ∈ (splitSign l).2 := mem_splitSign_snd hc (by decide) (by decide)
  have hc2 : ',' ∈ (splitSign l).2.dropWhile isDig :=
    mem_dropWhile_of_not_p isDig hc1 (by decide)
  have hfr : ∀ r : List Char, ',' ∈ r → ',' ∈ (fracSplit r).2 := by
    intro r hcr
    cases r with
    | nil => exact absurd hcr (List.not_mem_nil _)
    | cons c0 rest =>
      by_cases hdot : c0 = '.'
      · subst hdot
        have hcr2 : ',' ∈ rest := by
          rcases List.mem_cons.mp hcr with h | h
          · exact absurd h (by decide)
          · exact h
        exact mem_dropWhile_of_not_p isDig hcr2 (by decide)
      · rw [fracSplit_of_ne hdot]
        exact hcr
  have hc3 : ',' ∈ (fracSplit ((splitSign l).2.dropWhile isDig)).2 := hfr _ hc2
  have hexp : expPart (fracSplit ((splitSign l).2.dropWhile isDig)).2 = none := by
    rcases he : expPart (fracSplit ((splitSign l).2.dropWhile isDig)).2 with _ | e
    · rfl
    · exact (expPart_no_comma he hc3).elim
  unfold decGrammar
  rw [hexp]
  split <;> rfl

theorem decGrammar_no_comma {l : List Char} {d : Dec} (h : decGrammar l = some d) :
    l.map commaDot = l := by
  have hmem : ∀ c ∈ l, commaDot c = c := by
    intro c hcmem
    by_cases hcc : c = ','
    · subst hcc
      rw [decGrammar_comma_none l hcmem] at h
      exact Option.noConfusion h
    · simp [commaDot, hcc]
  calc l.map commaDot = l.map id := List.map_congr_left hmem
    _ = l := List.map_id l

/-! Commutation of the comma normalization with the cleanup stages. -/

theorem isWs_commaDot (c : Char) : isWs (commaDot c) = isWs c := by
  by_cases hc : c = ','
  · subst hc
    decide
  · simp [commaDot, hc]

theorem dropWhile_map_comm {α : Type} (p : α → Bool) (f : α → α)
    (hf : ∀ c, p (f c) = p c) (l : List α) :
    (l.map f).dropWhile p = (l.dropWhile p).map f := by
  induction l with
  | nil => rfl
  | cons a t ih =>
    rw [List.map_cons, List.dropWhile_cons, List.dropWhile_cons, hf a]
    by_cases ha : p a = true
    · rw [ha]
      simpa using ih
    · simp only [Bool.not_eq_true] at ha
      rw [ha]
      simp

theorem dropTrailing_map_comm (p : Char → Bool) (f : Char → Char)
    (hf : ∀ c, p (f c) = p c) (l : List Char) :
    dropTrailing p (l.map f) = (dropTrailing p l).map f := by
  unfold dropTrailing
  rw [← List.map_reverse, dropWhile_map_comm p f hf, List.map_reverse]

theorem stripChars_map_commaDot (l : List Char) :
    stripChars (l.map commaDot) = (stripChars l).map commaDot := by
  unfold stripChars
  rw [dropWhile_map_comm isWs commaDot isWs_commaDot,
    dropTrailing_map_comm isWs commaDot isWs_commaDot]

theorem underscoreFilter_map_commaDot (l : List Char) :
    (l.map commaDot).filter (fun c => c ≠ '_') =
      (l.filter (fun c => c ≠ '_')).map commaDot := by
  induction l with
  | nil => rfl
  | cons a t ih =>
    rw [List.map_cons, List.filter_cons, List.filter_cons]
    by_cases ha : a = '_'
    · subst ha
      simpa using ih
    · have h2 : commaDot a ≠ '_' := by
        by_cases hc : a = ','
        · subst hc
          decide
        · simpa [commaDot, hc] using ha
      rw [if_pos (decide_eq_true h2), if_pos (decide_eq_true ha), List.map_cons, ih]

theorem decParse_map_commaDot {l : List Char} {d : Dec} (h : decParse l = some d) :
    decParse (l.map commaDot) = some d := by
  unfold decParse at h ⊢
  rw [stripChars_map_commaDot, underscoreFilter_map_commaDot, decGrammar_no_comma h]
  exact h

theorem parse_amount_val (s : String) :
    parse_amount (Cell.val s) =
      if ((stripChars s.data).filter (fun c => c ≠ ' ')) = [] then none
      else decParse ((((stripChars s.data).filter (fun c => c ≠ ' '))).map commaDot) := rfl

theorem parse_amount_of_decParse_spaces {s : String} {q : Dec}
    (h : decParse (s.data.filter (fun c => c ≠ ' ')) = some q) :
    parse_amount (Cell.val s) = some q := by
  have hne : ((stripChars s.data).filter (fun c => c ≠ ' ')) ≠ [] := by
    intro hnil
    obtain ⟨w1, w2, hdec, h1, h2⟩ := exists_strip_decomp s.data
    have hcore : ∀ c ∈ stripChars s.data, c = ' ' := by
      intro c hc
      have hcc := List.filter_eq_nil_iff.mp hnil c hc
      simpa using hcc
    have hallws : ∀ c ∈ s.data, isWs c = true := by
      intro c hc
      rw [hdec] at hc
      rcases List.mem_append.mp hc with hc' | hc'
      · rcases List.mem_append.mp hc' with hc'' | hc''
        · exact h1 c hc''
        · rw [hcore c hc'']
          decide
      · exact h2 c hc'
    have hfws : ∀ c ∈ s.data.filter (fun c => c ≠ ' '), isWs c = true := by
      intro c hc
      exact hallws c (List.mem_filter.mp hc).1
    have hstripnil : stripChars (s.data.filter (fun c => c ≠ ' ')) = [] := by
      unfold stripChars
      rw [dropWhile_eq_nil_of_all _ _ hfws]
      rfl
    rw [show decParse (s.data.filter (fun c => c ≠ ' ')) = none from by
      unfold decParse
      rw [hstripnil]
      rfl] at h
    exact Option.noConfusion h
  rw [parse_amount_val, if_neg hne]
  apply decParse_map_commaDot
  unfold decParse at h ⊢
  rw [stripChars_filter_strip]
  exact h

/-! Exact-decimal value facts. -/

theorem Dec.toRat_zero : Dec.zero.toRat = 0 := by
  simp [Dec.zero, Dec.toRat]

theorem ratScale (A : ℚ) (as s : Nat) (h : as ≤ s) :
    A * (10 : ℚ) ^ (s - as) / (10 : ℚ) ^ s = A / (10 : ℚ) ^ as := by
  have h10 : (10 : ℚ) ^ (s - as) ≠ 0 := pow_ne_zero _ (by norm_num)
  rw [show (10 : ℚ) ^ s = (10 : ℚ) ^ (s - as) * (10 : ℚ) ^ as by
    rw [← pow_add]
    congr 1
    omega]
  rw [mul_comm A _, mul_div_mul_left _ _ h10]

theorem Dec.toRat_add (a b : Dec) : (a.add b).toRat = a.toRat + b.toRat := by
  unfold Dec.add Dec.toRat
  push_cast
  rw [add_div, ratScale _ _ _ (le_max_left a.scale b.scale),
    ratScale _ _ _ (le_max_right a.scale b.scale)]

theorem Dec.toRat_neg (a : Dec) : a.neg.toRat = -a.toRat := by
  unfold Dec.neg Dec.toRat
  push_cast
  rw [neg_div]

theorem Dec.toRat_sub (a b : Dec) : (a.sub b).toRat = a.toRat - b.toRat := by
  unfold Dec.sub
  rw [Dec.toRat_add, Dec.toRat_neg]
  ring

theorem Dec.beq_iff (a b : Dec) : a.beq b = true ↔ a.toRat = b.toRat := by
  unfold Dec.beq Dec.toRat
  rw [decide_eq_true_iff]
  rw [div_eq_div_iff (pow_ne_zero _ (by norm_num)) (pow_ne_zero _ (by norm_num))]
  constructor <;> intro h <;> exact_mod_cast h

/-! Key-sort facts: permutation, membership, sortedness, and the bridge
from the Bool comparison `strLe` to the string order. -/

theorem orderedInsertKey_perm (k : String) (l : List String) :
    List.Perm (orderedInsertKey k l) (k :: l) := by
  induction l with
  | nil => exact List.Perm.refl _
  | cons y t ih =>
    unfold orderedInsertKey
    by_cases h : strLe k y = true
    · simp only [h, if_true]
      exact List.Perm.refl _
    · simp only [h, if_false]
      exact (ih.cons y).trans (List.Perm.swap k y t)

theorem sortKeys_perm (l : List String) : List.Perm (sortKeys l) l := by
  induction l with
  | nil => exact List.Perm.refl _
  | cons x t ih =>
    unfold sortKeys
    exact (orderedInsertKey_perm x (sortKeys t)).trans (ih.cons x)

theorem mem_sortKeys {x : String} {l : List String} : x ∈ sortKeys l ↔ x ∈ l :=
  (sortKeys_perm l).mem_iff

theorem nodup_sortKeys {l : List String} (h : l.Nodup) : (sortKeys l).Nodup :=
  (sortKeys_perm l).nodup_iff.mpr h

theorem mem_orderedInsertKey {x k : String} {l : List String} :
    x ∈ orderedInsertKey k l ↔ x = k ∨ x ∈ l := by
  rw [(orderedInsertKey_perm k l).mem_iff, List.mem_cons]

theorem strLeB_total (a b : List Char) : strLeB a b = true ∨ strLeB b a = true := by
  induction a generalizing b with
  | nil => exact Or.inl rfl
  | cons x xs ih =>
    cases b with
    | nil => exact Or.inr rfl
    | cons y ys =>
      by_cases hxy : x = y
      · subst hxy
        simp only [strLeB, if_pos rfl]
        exact ih ys
      · have hts : x.toNat ≠ y.toNat := fun h => hxy (char_toNat_inj h)
        simp only [strLeB, if_neg hxy, if_neg (Ne.symm hxy), decide_eq_true_iff]
        omega

theorem strLeB_trans {a b c : List Char} (hab : strLeB a b = true)
    (hbc : strLeB b c = true) : strLeB a c = true := by
  induction a generalizing b c with
  | nil => rfl
  | cons x xs ih =>
    cases b with
    | nil => simp [strLeB] at hab
    | cons y ys =>
      cases c with
      | nil => simp [strLeB] at hbc
      | cons z zs =>
        by_cases hxy : x = y
        · by_cases hyz : y = z
          · simp only [hxy, hyz] at hab hbc ⊢
            simp [strLeB] at hab hbc ⊢
            exact ih hab hbc
          · simp only [hxy] at hab ⊢
            simp only [strLeB, if_neg hyz, decide_eq_true_iff] at hbc ⊢
            exact hbc
        · by_cases hyz : y = z
          · rw [hyz] at hxy hab
            simp only [strLeB, if_neg hxy, decide_eq_true_iff] at hab ⊢
            exact hab
          · simp only [strLeB, if_neg hxy, decide_eq_true_iff] at hab
            simp only [strLeB, if_neg hyz, decide_eq_true_iff] at hbc
            have hxz : x ≠ z := fun h => absurd (congrArg Char.toNat h) (by omega)
            simp only [strLeB, if_neg hxz, decide_eq_true_iff]
            omega

theorem strLe_total (a b : String) (h : strLe a b = false) : strLe b a = true := by
  rcases strLeB_total a.data b.data with h1 | h1
  · rw [strLe] at h
    rw [h] at h1
    exact absurd h1 (by simp)
  · exact h1

theorem strLe_trans {a b c : String} (hab : strLe a b = true) (hbc : strLe b c = true) :
    strLe a c = true :=
  strLeB_trans hab hbc

theorem pairwise_orderedInsertKey (k : String) (l : List String)
    (h : l.Pairwise (fun a b => strLe a b = true)) :
    (orderedInsertKey k l).Pairwise (fun a b => strLe a b = true) := by
  induction l with
  | nil => simp [orderedInsertKey]
  | cons y t ih =>
    rcases List.pairwise_cons.mp h with ⟨hy, ht⟩
    unfold orderedInsertKey
    by_cases hk : strLe k y = true
    · simp only [hk, if_true]
      refine List.pairwise_cons.mpr ⟨?_, h⟩
      intro z hz
      rcases List.mem_cons.mp hz with hz | hz
      · exact hz ▸ hk
      · exact strLe_trans hk (hy z hz)
    · simp only [hk, if_false]
      refine List.pairwise_cons.mpr ⟨?_, ih ht⟩
      intro z hz
      rcases mem_orderedInsertKey.mp hz with hz | hz
      · exact hz ▸ strLe_total k y (Bool.eq_false_iff.mpr hk)
      · exact hy z hz

theorem pairwise_sortKeys (l : List String) :
    (sortKeys l).Pairwise (fun a b => strLe a b = true) := by
  induction l with
  | nil => simp [sortKeys]
  | cons x t ih => exact pairwise_orderedInsertKey x (sortKeys t) ih

theorem strLeB_iff_not_lex (as bs : List Char) :
    strLeB as bs = true ↔ ¬ List.Lex (· < ·) bs as := by
  induction as generalizing bs with
  | nil =>
    simp only [strLeB, true_iff]
    exact List.Lex.not_nil_right _ bs
  | cons x xs ih =>
    cases bs with
    | nil =>
      simp only [strLeB]
      constructor
      · intro h
        exact absurd h (by simp)
      · intro h
        exact absurd (List.Lex.nil) h
    | cons y ys =>
      by_cases hxy : x = y
      · subst hxy
        have hred : strLeB (x :: xs) (x :: ys) = strLeB xs ys := by
          simp [strLeB]
        rw [hred, ih ys]
        constructor
        · intro h hl
          exact h (List.Lex.cons_iff.mp hl)
        · intro h hl
          exact h (List.Lex.cons hl)
      · simp only [strLeB, if_neg hxy, decide_eq_true_iff]
        have hlex : List.Lex (· < ·) (y :: ys) (x :: xs) ↔ y < x := by
          constructor
          · intro h
            cases h with
            | cons h => exact absurd rfl hxy
            | rel h => exact h
          · intro h
            exact List.Lex.rel h
        rw [hlex, char_lt_iff]
        have hts : x.toNat ≠ y.toNat := fun h => hxy (char_toNat_inj h)
        omega

theorem strLe_iff_le (a b : String) : strLe a b = true ↔ a ≤ b := by
  rw [strLe, strLeB_iff_not_lex]
  have h1 : b < a ↔ List.Lex (· < ·) b.data a.data := String.lt_iff_toList_lt
  rw [← h1]
  exact not_lt

theorem sorted_sortKeys (l : List String) : (sortKeys l).Sorted (· ≤ ·) :=
  (pairwise_sortKeys l).imp (fun h => (strLe_iff_le _ _).mp h)

/-! Grouping and summation facts. -/

theorem countP_eq_of_nodup (l : List String) (k : String) (h : l.Nodup) :
    l.countP (fun x => x = k) = if k ∈ l then 1 else 0 := by
  induction l with
  | nil => simp
  | cons x t ih =>
    rcases List.nodup_cons.mp h with ⟨hx, ht⟩
    rw [List.countP_cons, ih ht]
    by_cases hxk : x = k
    · subst hxk
      rw [if_neg hx, if_pos (List.mem_cons_self x t)]
      simp
    · have hmem : k ∈ x :: t ↔ k ∈ t := by
        constructor
        · intro hm
          rcases List.mem_cons.mp hm with he | ht2
          · exact absurd he.symm hxk
          · exact ht2
        · intro hm
          exact List.mem_cons_of_mem x hm
      by_cases hkt : k ∈ t
      · rw [if_pos hkt, if_pos (hmem.mpr hkt)]
        simp [hxk]
      · rw [if_neg hkt, if_neg (fun hm => hkt (hmem.mp hm))]
        simp [hxk]

theorem find?_eq_head?_filter {α : Type} (p : α → Bool) (l : List α) :
    l.find? p = (l.filter p).head? := by
  induction l with
  | nil => rfl
  | cons x t ih =>
    rw [List.filter_cons]
    by_cases hx : p x = true
    · rw [List.find?_cons_of_pos _ hx, if_pos hx, List.head?_cons]
    · simp only [Bool.not_eq_true] at hx
      rw [List.find?_cons_of_neg _ (by simp [hx]), if_neg (by simp [hx]), ih]

theorem aggregate_keys (rows : List SrcRow) :
    (aggregate rows).map (fun a => a.company_id) =
      sortKeys ((rows.map (fun r => r.id)).dedup) := by
  unfold aggregate
  rw [List.map_map]
  exact List.map_id _

theorem mem_aggregate_keys {rows : List SrcRow} {k : String} :
    k ∈ (aggregate rows).map (fun a => a.company_id) ↔
      k ∈ rows.map (fun r => r.id) := by
  rw [aggregate_keys, mem_sortKeys, List.mem_dedup]

theorem nodup_aggregate_keys (rows : List SrcRow) :
    ((aggregate rows).map (fun a => a.company_id)).Nodup := by
  rw [aggregate_keys]
  exact nodup_sortKeys (List.nodup_dedup _)

theorem mem_aggregate {rows : List SrcRow} {a : AggRow} (h : a ∈ aggregate rows) :
    a = ⟨a.company_id, groupSum rows a.company_id, firstName rows a.company_id⟩ ∧
      a.company_id ∈ rows.map (fun r => r.id) := by
  unfold aggregate at h
  rcases List.mem_map.mp h with ⟨k, hk, hka⟩
  rw [← hka]
  refine ⟨rfl, ?_⟩
  rw [← List.mem_dedup, ← mem_sortKeys]
  exact hk

theorem sumStep_fold (k : String) (rows : List SrcRow) (acc : Dec) :
    (rows.foldl (sumStep k) acc).toRat =
      acc.toRat +
        ((rows.filter (fun r => r.id = k)).map
          (fun r => ((r.amt.map Dec.toRat).getD 0))).sum := by
  induction rows generalizing acc with
  | nil => simp
  | cons r t ih =>
    rw [List.foldl_cons, List.filter_cons, ih]
    by_cases hid : r.id = k
    · cases ha : r.amt with
      | none => simp [sumStep, hid, ha]
      | some v => simp [sumStep, hid, ha, Dec.toRat_add]; ring
    · simp [sumStep, hid]

theorem groupSum_toRat (rows : List SrcRow) (k : String) :
    (groupSum rows k).toRat =
      ((rows.filter (fun r => r.id = k)).map
        (fun r => ((r.amt.map Dec.toRat).getD 0))).sum := by
  unfold groupSum
  rw [sumStep_fold, Dec.toRat_zero, zero_add]

theorem sumDec_fold (l : List Dec) (acc : Dec) :
    (l.foldl Dec.add acc).toRat = acc.toRat + (l.map Dec.toRat).sum := by
  induction l generalizing acc with
  | nil => simp
  | cons d t ih =>
    rw [List.foldl_cons, ih, Dec.toRat_add, List.map_cons, List.sum_cons]
    ring

theorem sumDec_toRat (l : List Dec) : (sumDec l).toRat = (l.map Dec.toRat).sum := by
  unfold sumDec
  rw [sumDec_fold, Dec.toRat_zero, zero_add]

theorem sum_map_zero {α : Type} (l : List α) : (l.map (fun _ => (0 : Nat))).sum = 0 := by
  induction l with
  | nil => rfl
  | cons x t ih => simp [ih]

theorem sum_map_add {α : Type} (f g : α → Nat) (l : List α) :
    (l.map (fun x => f x + g x)).sum = (l.map f).sum + (l.map g).sum := by
  induction l with
  | nil => rfl
  | cons x t ih =>
    simp only [List.map_cons, List.sum_cons, ih]
    omega

theorem sum_map_ite_zero (ks : List String) (s : String) (h : s ∉ ks) :
    (ks.map (fun k => if s = k then 1 else 0)).sum = 0 := by
  induction ks with
  | nil => rfl
  | cons k t ih =>
    have hs : s ≠ k := fun he => h (he ▸ List.mem_cons_self k t)
    simp only [List.map_cons, List.sum_cons, if_neg hs]
    rw [ih (fun hm => h (List.mem_cons_of_mem k hm))]

theorem sum_map_ite_one (ks : List String) (s : String) (hnd : ks.Nodup) (hm : s ∈ ks) :
    (ks.map (fun k => if s = k then 1 else 0)).sum = 1 := by
  induction ks with
  | nil => exact absurd hm (List.not_mem_nil s)
  | cons k t ih =>
    rcases List.nodup_cons.mp hnd with ⟨hk, ht⟩
    by_cases hs : s = k
    · subst hs
      simp only [List.map_cons, List.sum_cons, if_pos rfl]
      rw [sum_map_ite_zero t s hk]
      simp
    · rcases List.mem_cons.mp hm with he | hmt
      · exact absurd he hs
      · simp only [List.map_cons, List.sum_cons, if_neg hs]
        rw [ih ht hmt]

theorem length_eq_sum_counts {α : Type} (f : α → String) (l : List α) (ks : List String)
    (hnd : ks.Nodup) (hall : ∀ x ∈ l, f x ∈ ks) :
    (ks.map (fun k => (l.filter (fun x => f x = k)).length)).sum = l.length := by
  induction l with
  | nil =>
    simp only [List.filter_nil, List.length_nil]
    exact sum_map_zero ks
  | cons x t ih =>
    have hx : f x ∈ ks := hall x (List.mem_cons_self x t)
    have hmap : ks.map (fun k => ((x :: t).filter (fun y => f y = k)).length) =
        ks.map (fun k => (if f x = k then 1 else 0) + (t.filter (fun y => f y = k)).length) := by
      apply List.map_congr_left
      intro k _
      rw [List.filter_cons]
      by_cases hk : f x = k
      · rw [if_pos (decide_eq_true hk), if_pos hk, List.length_cons]
        omega
      · simp [hk]
    rw [hmap, sum_map_add, sum_map_ite_one ks (f x) hnd hx,
      ih (fun y hy => hall y (List.mem_cons_of_mem x hy))]
    simp [Nat.add_comm]

/-! Reconciler table facts. -/

theorem firstName_eq (src : List SrcRow) (k : String)
    (hk : k ∈ src.map (fun r => r.id)) :
    some (firstName src k) =
      ((src.filter (fun r => r.id = k)).head?).map (fun r => r.name) := by
  rw [← find?_eq_head?_filter]
  rcases List.mem_map.mp hk with ⟨r0, hr0, hid⟩
  rcases hf : src.find? (fun r => r.id = k) with _ | b
  · rw [List.find?_eq_none] at hf
    exact absurd (decide_eq_true hid) (hf r0 hr0)
  · unfold firstName
    rw [hf]
    rfl

theorem findAgg_eq_none {t : List AggRow} {k : String}
    (h : k ∉ t.map (fun a => a.company_id)) : findAgg t k = none := by
  unfold findAgg
  rw [List.find?_eq_none]
  intro a ha
  simp only [decide_eq_true_iff]
  intro he
  exact h (List.mem_map.mpr ⟨a, ha, he⟩)

theorem findAgg_isSome_iff {t : List AggRow} {k : String} :
    (findAgg t k).isSome = true ↔ k ∈ t.map (fun a => a.company_id) := by
  constructor
  · intro h
    rcases ho : findAgg t k with _ | a
    · rw [ho] at h
      simp at h
    · have ha : a ∈ t := List.mem_of_find?_eq_some ho
      have hp := List.find?_some ho
      simp only [decide_eq_true_iff] at hp
      exact List.mem_map.mpr ⟨a, ha, hp⟩
  · intro h
    rcases ho : findAgg t k with _ | a
    · exfalso
      rcases List.mem_map.mp h with ⟨b, hb, hbk⟩
      unfold findAgg at ho
      rw [List.find?_eq_none] at ho
      exact absurd (decide_eq_true hbk) (ho b hb)
    · rfl

theorem detailTable_keys (f1 f2 : String) (left right : List AggRow) :
    (detailTable f1 f2 left right).map (fun r => r.company_id) =
      sortKeys ((left.map (fun a => a.company_id) ++
        right.map (fun a => a.company_id)).dedup) := by
  unfold detailTable
  rw [List.map_map]
  exact List.map_id _

theorem detail_fields (f1 f2 : String) (left right : List AggRow) {r : DetailRow}
    (h : r ∈ detailTable f1 f2 left right) :
    r.company_name_1 = (findAgg left r.company_id).map (fun a => a.name)
    ∧ r.company_name_2 = (findAgg right r.company_id).map (fun a => a.name)
    ∧ r.amount_1 = (match findAgg left r.company_id with
        | some a => a.amount
        | none => Dec.zero)
    ∧ r.amount_2 = (match findAgg right r.company_id with
        | some a => a.amount
        | none => Dec.zero)
    ∧ r.delta = r.amount_1.sub r.amount_2
    ∧ r.status = get_status f1 f2 r.company_name_1 r.company_name_2 r.delta := by
  unfold detailTable at h
  rcases List.mem_map.mp h with ⟨k, hk, hkr⟩
  subst hkr
  exact ⟨rfl, rfl, rfl, rfl, rfl, rfl⟩

theorem mem_detail_key (f1 f2 : String) (left right : List AggRow) {r : DetailRow}
    (h : r ∈ detailTable f1 f2 left right) :
    r.company_id ∈ left.map (fun a => a.company_id) ∨
      r.company_id ∈ right.map (fun a => a.company_id) := by
  unfold detailTable at h
  rcases List.mem_map.mp h with ⟨k, hk, hkr⟩
  subst hkr
  rw [mem_sortKeys, List.mem_dedup, List.mem_append] at hk
  exact hk

theorem get_status_match {f1 f2 : String} {n1 n2 : Option String} {delta : Dec}
    (h1 : n1.isSome = true) (h2 : n2.isSome = true) (hd : delta.toRat = 0) :
    get_status f1 f2 n1 n2 delta = "MATCH" := by
  unfold get_status
  rw [h1, h2]
  simp only [Bool.and_self, if_true]
  rw [if_pos ((Dec.beq_iff delta Dec.zero).mpr (by rw [Dec.toRat_zero]; exact hd))]

theorem get_status_mismatch {f1 f2 : String} {n1 n2 : Option String} {delta : Dec}
    (h1 : n1.isSome = true) (h2 : n2.isSome = true) (hd : delta.toRat ≠ 0) :
    get_status f1 f2 n1 n2 delta = "MISMATCH" := by
  unfold get_status
  rw [h1, h2]
  simp only [Bool.and_self, if_true]
  rw [if_neg]
  intro hbeq
  exact hd (by
    have := (Dec.beq_iff delta Dec.zero).mp hbeq
    rw [Dec.toRat_zero] at this
    exact this)

theorem get_status_only1 {f1 f2 : String} {n1 n2 : Option String} {delta : Dec}
    (h1 : n1.isSome = true) (h2 : n2 = none) :
    get_status f1 f2 n1 n2 delta = "only_file_" ++ f1 := by
  unfold get_status
  rw [h1, h2]
  simp

theorem get_status_only2 {f1 f2 : String} {n1 n2 : Option String} {delta : Dec}
    (h1 : n1 = none) : get_status f1 f2 n1 n2 delta = "only_file_" ++ f2 := by
  unfold get_status
  rw [h1]
  simp

theorem summaryTable_keys (detail : List DetailRow) :
    (summaryTable detail).map (fun s => s.status) =
      sortKeys ((detail.map (fun r => r.status)).dedup) := by
  unfold summaryTable
  rw [List.map_map]
  exact List.map_id _

/-! Leftmost-bracket-match facts. -/

theorem bracketSearch_cons (c : Char) (rest : List Char) :
    bracketSearch (c :: rest) =
      if c = '[' then
        if rest.takeWhile isDig ≠ [] ∧ (rest.dropWhile isDig).head? = some ']' then
          some ⟨rest.takeWhile isDig⟩
        else bracketSearch rest
      else bracketSearch rest := rfl

theorem bracketSearch_append (a ds b : List Char) (ha : bracketSearch a = none)
    (hds : ds ≠ []) (hdig : ∀ c ∈ ds, isDig c = true) :
    bracketSearch (a ++ '[' :: (ds ++ ']' :: b)) = some ⟨ds⟩ := by
  induction a with
  | nil =>
    rw [List.nil_append, bracketSearch_cons, if_pos rfl]
    have h1 := takeWhile_append_stop isDig ds ']' b hdig (by decide)
    rw [if_pos]
    · rw [h1.1]
    · rw [h1.1, h1.2]
      exact ⟨hds, rfl⟩
  | cons c a' ih =>
    rw [List.cons_append, bracketSearch_cons]
    by_cases hc : c = '['
    · rw [if_pos hc]
      have hcond : ¬(a'.takeWhile isDig ≠ [] ∧ (a'.dropWhile isDig).head? = some ']') := by
        intro hcond
        rw [bracketSearch_cons, if_pos hc, if_pos hcond] at ha
        exact Option.noConfusion ha
      have ha' : bracketSearch a' = none := by
        rw [bracketSearch_cons, if_pos hc, if_neg hcond] at ha
        exact ha
      rw [if_neg ?_]
      · exact ih ha'
      · rcases hda : a'.dropWhile isDig with _ | ⟨y, ys⟩
        · have hall : ∀ x ∈ a', isDig x = true := List.dropWhile_eq_nil_iff.mp hda
          rw [takeWhile_append_of_all isDig a' _ hall,
            dropWhile_append_of_all isDig a' _ hall]
          rw [List.takeWhile_cons]
          rw [show isDig '[' = false from by decide]
          rw [List.dropWhile_cons]
          rw [show isDig '[' = false from by decide]
          simp
        · have hne : a'.dropWhile isDig ≠ [] := by
            rw [hda]
            simp
          rw [takeWhile_append_of_ne_nil isDig a' _ hne,
            dropWhile_append_of_ne_nil isDig a' _ hne, hda]
          intro hcond2
          exact hcond ⟨hcond2.1, by
            rw [hda]
            simpa using hcond2.2⟩
    · rw [if_neg hc]
      rw [bracketSearch_cons, if_neg hc] at ha
      exact ih ha

theorem bracketSearch_some {l : List Char} {s : String} (h : bracketSearch l = some s) :
    ∃ a ds b, l = a ++ '[' :: (ds ++ ']' :: b) ∧ ds ≠ [] ∧
      (∀ c ∈ ds, isDig c = true) ∧ s = ⟨ds⟩ := by
  induction l with
  | nil => exact Option.noConfusion h
  | cons c rest ih =>
    by_cases hc : c = '['
    · by_cases hcond : rest.takeWhile isDig ≠ [] ∧ (rest.dropWhile isDig).head? = some ']'
      · rcases hdw : rest.dropWhile isDig with _ | ⟨z, zs⟩
        · rw [hdw] at hcond
          exact absurd hcond.2 (by simp)
        · have hz : z = ']' := by
            rw [hdw] at hcond
            simpa using hcond.2
          subst hz
          subst hc
          have hs : s = ⟨rest.takeWhile isDig⟩ := by
            rw [bracketSearch_cons, if_pos rfl, if_pos hcond] at h
            exact (Option.some.inj h).symm
          refine ⟨[], rest.takeWhile isDig, zs, ?_, hcond.1,
            fun c hc2 => List.mem_takeWhile_imp hc2, hs⟩
          rw [List.nil_append]
          congr 1
          conv_lhs => rw [← List.takeWhile_append_dropWhile isDig rest]
          rw [hdw]
      · have h' : bracketSearch rest = some s := by
          rw [bracketSearch_cons, if_pos hc, if_neg hcond] at h
          exact h
        obtain ⟨a, ds, b, hl, h1, h2, h3⟩ := ih h'
        subst hc
        exact ⟨'[' :: a, ds, b, by rw [List.cons_append, hl], h1, h2, h3⟩
    · have h' : bracketSearch rest = some s := by
        rw [bracketSearch_cons, if_neg hc] at h
        exact h
      obtain ⟨a, ds, b, hl, h1, h2, h3⟩ := ih h'
      exact ⟨c :: a, ds, b, by rw [List.cons_append, hl], h1, h2, h3⟩

/-! Demo inputs used by the concrete scenarios. -/

/-- Demo file-1 table: one row, identifier `5` embedded in the name,
amount `100.00`. -/
def demoRows1 : List Row1 := [⟨Cell.absent, Cell.val "Acme [5]", Cell.val "100.00"⟩]

/-- Demo file-2 table: one row, identifier `5`, amount `100.00`. -/
def demoRows2Eq : List Row2 :=
  [⟨Cell.val "5", Cell.absent, Cell.val "Acme", Cell.val "100.00"⟩]

/-- Demo file-2 table: one row, identifier `5`, amount `99.99`. -/
def demoRows2Ne : List Row2 :=
  [⟨Cell.val "5", Cell.absent, Cell.val "Acme", Cell.val "99.99"⟩]

/-- Normalized `parse_amount` on a character list known to hold no
whitespace and no spaces: cleanup is the identity and only the comma
normalization applies. -/
theorem parse_amount_clean (l : List Char) (hws : ∀ c ∈ l, isWs c = false)
    (hsp : ∀ c ∈ l, decide (c ≠ ' ') = true) (hne : l ≠ []) :
    parse_amount (Cell.val ⟨l⟩) = decParse (l.map commaDot) := by
  rw [parse_amount_val]
  rw [show stripChars (String.mk l).data = l from by
    show stripChars l = l
    exact stripChars_eq_self_of l hws]
  rw [List.filter_eq_self.mpr hsp]
  rw [if_neg hne]

/-- C4: for decimal text written with either a comma or a period as the
fractional separator, `parse_amount` returns the same exact decimal value,
because every comma is replaced with a period before `Decimal` parsing;
in particular `parse_amount("123,45") = parse_amount("123.45") =
Decimal("123.45")`. -/
theorem claim4_comma_period_equiv :
    (∀ ip fp : List Char, (∀ c ∈ ip, isDig c = true) → (∀ c ∈ fp, isDig c = true) →
        parse_amount (Cell.val ⟨ip ++ ',' :: fp⟩) = parse_amount (Cell.val ⟨ip ++ '.' :: fp⟩))
    ∧ parse_amount (Cell.val "123,45") = some ⟨12345, 2⟩
    ∧ parse_amount (Cell.val "123.45") = some ⟨12345, 2⟩
    ∧ (⟨12345, 2⟩ : Dec).toRat = 12345 / 100 := by
  refine ⟨?_, by decide, by decide, by norm_num [Dec.toRat]⟩
  intro ip fp hip hfp
  have hws1 : ∀ c ∈ ip ++ ',' :: fp, isWs c = false := by
    intro c hc
    rcases List.mem_append.mp hc with h | h
    · exact isDig_not_ws (hip c h)
    · rcases List.mem_cons.mp h with h2 | h2
      · subst h2
        decide
      · exact isDig_not_ws (hfp c h2)
  have hws2 : ∀ c ∈ ip ++ '.' :: fp, isWs c = false := by
    intro c hc
    rcases List.mem_append.mp hc with h | h
    · exact isDig_not_ws (hip c h)
    · rcases List.mem_cons.mp h with h2 | h2
      · subst h2
        decide
      · exact isDig_not_ws (hfp c h2)
  have hsp1 : ∀ c ∈ ip ++ ',' :: fp, decide (c ≠ ' ') = true := by
    intro c hc
    rcases List.mem_append.mp hc with h | h
    · exact decide_eq_true (fun he => absurd (he ▸ hip c h) (by decide))
    · rcases List.mem_cons.mp h with h2 | h2
      · subst h2
        decide
      · exact decide_eq_true (fun he => absurd (he ▸ hfp c h2) (by decide))
  have hsp2 : ∀ c ∈ ip ++ '.' :: fp, decide (c ≠ ' ') = true := by
    intro c hc
    rcases List.mem_append.mp hc with h | h
    · exact decide_eq_true (fun he => absurd (he ▸ hip c h) (by decide))
    · rcases List.mem_cons.mp h with h2 | h2
      · subst h2
        decide
      · exact decide_eq_true (fun he => absurd (he ▸ hfp c h2) (by decide))
  rw [parse_amount_clean _ hws1 hsp1 (by simp), parse_amount_clean _ hws2 hsp2 (by simp)]
  rw [List.map_append, List.map_append, List.map_cons, List.map_cons]
  rw [show commaDot ',' = '.' from rfl, show commaDot '.' = '.' from rfl]

/-- C4 witness: the comma/period equivalence at the concrete digit lists
of `123,45` versus `123.45`. -/
theorem claim4_witness :
    parse_amount (Cell.val ⟨['1', '2', '3'] ++ ',' :: ['4', '5']⟩) =
      parse_amount (Cell.val ⟨['1', '2', '3'] ++ '.' :: ['4', '5']⟩) :=
  claim4_comma_period_equiv.1 ['1', '2', '3'] ['4', '5'] (by decide) (by decide)

/-- C5 counterexample: the text `"1\t2"` becomes the valid decimal `12`
once all whitespace is removed, yet `parse_amount` yields absent, because
the code removes only internal spaces (U+0020), not all internal
whitespace. -/
theorem claim5_counterexample :
    ("1\t2".data.filter (fun c => !(isWs c)) = "12".data)
    ∧ decParse "12".data = some ⟨12, 0⟩
    ∧ parse_amount (Cell.val "1\t2") = none
    ∧ ¬ parse_amount (Cell.val "1\t2") = some ⟨12, 0⟩ := by decide

/-- C5 (amended): `parse_amount` stringifies the input and strips internal
space characters entirely (not just at the ends), so every input whose
stringified form becomes a valid exact decimal once all spaces are removed
parses to that decimal; in particular
`parse_amount("1 234.56") = Decimal("1234.56")`. -/
theorem claim5_internal_spaces :
    (∀ (s : String) (q : Dec), decParse (s.data.filter (fun c => c ≠ ' ')) = some q →
        parse_amount (Cell.val s) = some q)
    ∧ parse_amount (Cell.val "1 234.56") = some ⟨123456, 2⟩
    ∧ (⟨123456, 2⟩ : Dec).toRat = 123456 / 100 := by
  refine ⟨?_, by decide, by norm_num [Dec.toRat]⟩
  intro s q h
  exact parse_amount_of_decParse_spaces h

/-- C5 witness: the amended statement applied to `"1 2"`. -/
theorem claim5_witness : parse_amount (Cell.val "1 2") = some ⟨12, 0⟩ :=
  claim5_internal_spaces.1 "1 2" ⟨12, 0⟩ (by decide)

/-- C6: `parse_id_from_file1` is absent on a missing field; on text it
returns the digit sequence inside the first bracket pair (any earlier text
holding no complete bracketed digit group is skipped, later bracket pairs
are ignored), and is absent when no bracketed digit group exists;
`parse_id_from_file1("X [1] Y [2]") = "1"`. -/
theorem claim6_first_bracket_group :
    parse_id_from_file1 Cell.absent = none
    ∧ (∀ (a ds b : List Char), bracketSearch a = none → ds ≠ [] →
        (∀ c ∈ ds, isDig c = true) →
        parse_id_from_file1 (Cell.val ⟨a ++ '[' :: (ds ++ ']' :: b)⟩) = some ⟨ds⟩)
    ∧ (∀ s : String, (¬ ∃ a ds b, s.data = a ++ '[' :: (ds ++ ']' :: b) ∧ ds ≠ [] ∧
        ∀ c ∈ ds, isDig c = true) → parse_id_from_file1 (Cell.val s) = none)
    ∧ parse_id_from_file1 (Cell.val "X [1] Y [2]") = some "1" := by
  refine ⟨rfl, ?_, ?_, by decide⟩
  · intro a ds b ha hds hdig
    show bracketSearch (a ++ '[' :: (ds ++ ']' :: b)) = some ⟨ds⟩
    exact bracketSearch_append a ds b ha hds hdig
  · intro s hno
    show bracketSearch s.data = none
    rcases hb : bracketSearch s.data with _ | str
    · rfl
    · exact absurd ((bracketSearch_some hb).imp
        (fun a => Exists.imp (fun ds => Exists.imp
          (fun b h => ⟨h.1, h.2.1, h.2.2.1⟩)))) hno

/-- C6 witness: the first-bracket-pair rule at a concrete decomposition,
`"X [1] Y"` style. -/
theorem claim6_witness :
    parse_id_from_file1 (Cell.val ⟨['X', ' '] ++ '[' :: (['1'] ++ ']' :: [' ', 'Y'])⟩) =
      some ⟨['1']⟩ :=
  claim6_first_bracket_group.2.1 ['X', ' '] ['1'] [' ', 'Y'] (by decide) (by decide)
    (by decide)

/-- Normalized form of `parse_id_from_file2` on a present cell. -/
theorem parse_id2_val (s : String) :
    parse_id_from_file2 (Cell.val s) =
      if stripChars s.data = [] then none
      else some ⟨stripChars ((stripChars s.data).takeWhile (fun c => c ≠ ','))⟩ := rfl

/-- C7: `parse_id_from_file2` is absent on a missing or blank field;
otherwise it returns the trimmed text before the first comma, the entire
trimmed text when no comma is present; `parse_id_from_file2("4821,000") =
"4821"` and `parse_id_from_file2("4821") = "4821"`. -/
theorem claim7_precomma_prefix :
    parse_id_from_file2 Cell.absent = none
    ∧ (∀ s : String, stripChars s.data = [] → parse_id_from_file2 (Cell.val s) = none)
    ∧ (∀ (a b : List Char), ',' ∉ a →
        parse_id_from_file2 (Cell.val ⟨a ++ ',' :: b⟩) = some ⟨stripChars a⟩)
    ∧ (∀ s : String, ',' ∉ s.data → stripChars s.data ≠ [] →
        parse_id_from_file2 (Cell.val s) = some ⟨stripChars s.data⟩)
    ∧ parse_id_from_file2 (Cell.val "4821,000") = some "4821"
    ∧ parse_id_from_file2 (Cell.val "4821") = some "4821" := by
  refine ⟨rfl, ?_, ?_, ?_, by decide, by decide⟩
  · intro s h
    rw [parse_id2_val, if_pos h]
  · intro a b hnc
    rw [parse_id2_val]
    rw [show stripChars (String.mk (a ++ ',' :: b)).data =
        a.dropWhile isWs ++ ',' :: dropTrailing isWs b from by
      show stripChars (a ++ ',' :: b) = _
      exact stripChars_append_mid a ',' b (by decide)]
    rw [if_neg (by simp)]
    have htake : (a.dropWhile isWs ++ ',' :: dropTrailing isWs b).takeWhile
        (fun c => decide (c ≠ ',')) = a.dropWhile isWs := by
      refine (takeWhile_append_stop _ (a.dropWhile isWs) ',' (dropTrailing isWs b) ?_
        (by decide)).1
      intro x hx
      exact decide_eq_true
        (fun he => hnc (he ▸ (List.dropWhile_sublist isWs).subset hx))
    rw [htake]
    congr 2
    show dropTrailing isWs ((a.dropWhile isWs).dropWhile isWs) = stripChars a
    rw [dropWhile_idem]
    rfl
  · intro s hnc hne
    rw [parse_id2_val, if_neg hne]
    have hall : ∀ c ∈ stripChars s.data, decide (c ≠ ',') = true := by
      intro c hc
      exact decide_eq_true (fun he => hnc (he ▸ mem_of_mem_stripChars hc))
    rw [takeWhile_eq_self_of _ _ hall, stripChars_idem]

/-- C7 witness: the pre-comma rule at the concrete split of `"4821,000"`. -/
theorem claim7_witness :
    parse_id_from_file2 (Cell.val ⟨['4', '8', '2', '1'] ++ ',' :: ['0', '0', '0']⟩) =
      some ⟨stripChars ['4', '8', '2', '1']⟩ :=
  claim7_precomma_prefix.2.2.1 ['4', '8', '2', '1'] ['0', '0', '0'] (by decide)

/-- C8: `parse_amount` is total: every cell yields an exact decimal or
absent (never an exception); missing cells, empty text and whitespace-only
text yield absent, and cleaned text rejected by the decimal grammar
yields absent rather than an error. -/
theorem claim8_parse_amount_total :
    (∀ v : Cell, parse_amount v = none ∨ ∃ q : Dec, parse_amount v = some q)
    ∧ parse_amount Cell.absent = none
    ∧ (∀ s : String, stripChars s.data = [] → parse_amount (Cell.val s) = none)
    ∧ (∀ s : String,
        decParse ((((stripChars s.data).filter (fun c => c ≠ ' '))).map commaDot) = none →
        parse_amount (Cell.val s) = none) := by
  refine ⟨?_, rfl, ?_, ?_⟩
  · intro v
    rcases h : parse_amount v with _ | q
    · exact Or.inl rfl
    · exact Or.inr ⟨q, rfl⟩
  · intro s h
    rw [parse_amount_val, h]
    rfl
  · intro s h
    rw [parse_amount_val]
    by_cases hnil : ((stripChars s.data).filter (fun c => c ≠ ' ')) = []
    · rw [if_pos hnil]
    · rw [if_neg hnil, h]

/-- C8 witness: totality at the concrete unparseable text `"abc"`. -/
theorem claim8_witness : parse_amount (Cell.val "abc") = none :=
  claim8_parse_amount_total.2.2.2 "abc" (by decide)

/-- C1: `compare` is a full outer join on identifier: every identifier of
either aggregated source yields exactly one detail row and no other
identifier yields any; in each detail row the absent side's name stays
absent and its amount defaults to exact decimal zero, and
`delta = amount_1 - amount_2`. -/
theorem claim1_full_outer_join (f1 f2 : String) (rows1 : List Row1) (rows2 : List Row2) :
    (∀ k : String,
      (compare f1 f2 rows1 rows2).1.countP (fun r => r.company_id = k) =
        (if k ∈ (prepare_file1 rows1).map (fun a => a.company_id) ∨
            k ∈ (prepare_file2 rows2).map (fun a => a.company_id) then 1 else 0))
    ∧ (∀ r ∈ (compare f1 f2 rows1 rows2).1,
        r.delta = r.amount_1.sub r.amount_2
        ∧ (r.company_id ∉ (prepare_file1 rows1).map (fun a => a.company_id) →
            r.company_name_1 = none ∧ r.amount_1 = Dec.zero)
        ∧ (r.company_id ∉ (prepare_file2 rows2).map (fun a => a.company_id) →
            r.company_name_2 = none ∧ r.amount_2 = Dec.zero)) := by
  constructor
  · intro k
    show (detailTable f1 f2 (prepare_file1 rows1) (prepare_file2 rows2)).countP
        (fun r => r.company_id = k) = _
    unfold detailTable
    rw [List.countP_map]
    have hstep : List.countP ((fun (r : DetailRow) => decide (r.company_id = k)) ∘
        mkDetailRow f1 f2 (prepare_file1 rows1) (prepare_file2 rows2))
        (sortKeys (((prepare_file1 rows1).map (fun a => a.company_id) ++
          (prepare_file2 rows2).map (fun a => a.company_id)).dedup)) =
        List.countP (fun x => decide (x = k))
        (sortKeys (((prepare_file1 rows1).map (fun a => a.company_id) ++
          (prepare_file2 rows2).map (fun a => a.company_id)).dedup)) := rfl
    rw [hstep, countP_eq_of_nodup _ _ (nodup_sortKeys (List.nodup_dedup _))]
    simp only [mem_sortKeys, List.mem_dedup, List.mem_append]
  · intro r hr
    have hr' : r ∈ detailTable f1 f2 (prepare_file1 rows1) (prepare_file2 rows2) := hr
    obtain ⟨hn1, hn2, ha1, ha2, hdelta, -⟩ :=
      detail_fields f1 f2 (prepare_file1 rows1) (prepare_file2 rows2) hr'
    refine ⟨hdelta, ?_, ?_⟩
    · intro hnot
      have h0 : findAgg (prepare_file1 rows1) r.company_id = none := findAgg_eq_none hnot
      constructor
      · rw [hn1, h0]
        rfl
      · rw [ha1, h0]
    · intro hnot
      have h0 : findAgg (prepare_file2 rows2) r.company_id = none := findAgg_eq_none hnot
      constructor
      · rw [hn2, h0]
        rfl
      · rw [ha2, h0]

/-- C1 witness: on the demo tables, identifier `5` appears exactly once in
the detail table, and a concrete detail row satisfies the delta equation. -/
theorem claim1_witness :
    ((compare "A" "B" demoRows1 demoRows2Eq).1.countP (fun r => r.company_id = "5") = 1)
    ∧ (⟨"5", some "Acme [5]", some "Acme", ⟨10000, 2⟩, ⟨10000, 2⟩, ⟨0, 2⟩,
        "MATCH"⟩ : DetailRow).delta = Dec.sub ⟨10000, 2⟩ ⟨10000, 2⟩ := by
  constructor
  · have h := (claim1_full_outer_join "A" "B" demoRows1 demoRows2Eq).1 "5"
    rw [h, if_pos (Or.inl (by decide))]
  · have h := ((claim1_full_outer_join "A" "B" demoRows1 demoRows2Eq).2
      ⟨"5", some "Acme [5]", some "Acme", ⟨10000, 2⟩, ⟨10000, 2⟩, ⟨0, 2⟩, "MATCH"⟩
      (by decide)).1
    exact h

/-- C2: each detail row's status comes from the fixed rule order of
`get_status`, with exact decimal equality on delta (the model computes
with exact decimals throughout; no floating-point value enters the
classification); concretely, totals `100.00`/`100.00` give `MATCH` with
delta `0` and `100.00`/`99.99` give `MISMATCH` with delta exactly `0.01`. -/
theorem claim2_status_rules (f1 f2 : String) (rows1 : List Row1) (rows2 : List Row2) :
    (∀ r ∈ (compare f1 f2 rows1 rows2).1,
      (r.company_name_1.isSome = true → r.company_name_2.isSome = true →
        ((r.delta.toRat = 0 → r.status = "MATCH")
          ∧ (r.delta.toRat ≠ 0 → r.status = "MISMATCH")))
      ∧ (r.company_name_1.isSome = true → r.company_name_2 = none →
          r.status = "only_file_" ++ f1)
      ∧ (r.company_name_1 = none → r.status = "only_file_" ++ f2))
    ∧ (compare "A" "B" demoRows1 demoRows2Eq).1 =
        [⟨"5", some "Acme [5]", some "Acme", ⟨10000, 2⟩, ⟨10000, 2⟩, ⟨0, 2⟩, "MATCH"⟩]
    ∧ (compare "A" "B" demoRows1 demoRows2Ne).1 =
        [⟨"5", some "Acme [5]", some "Acme", ⟨10000, 2⟩, ⟨9999, 2⟩, ⟨1, 2⟩, "MISMATCH"⟩]
    ∧ (⟨0, 2⟩ : Dec).toRat = 0 ∧ (⟨1, 2⟩ : Dec).toRat = 1 / 100
    ∧ (⟨10000, 2⟩ : Dec).toRat = 100 ∧ (⟨9999, 2⟩ : Dec).toRat = 9999 / 100 := by
  refine ⟨?_, by decide, by decide, by norm_num [Dec.toRat], by norm_num [Dec.toRat],
    by norm_num [Dec.toRat], by norm_num [Dec.toRat]⟩
  intro r hr
  have hr' : r ∈ detailTable f1 f2 (prepare_file1 rows1) (prepare_file2 rows2) := hr
  obtain ⟨-, -, -, -, -, hst⟩ :=
    detail_fields f1 f2 (prepare_file1 rows1) (prepare_file2 rows2) hr'
  refine ⟨fun h1 h2 => ⟨fun hd => ?_, fun hd => ?_⟩, fun h1 h2 => ?_, fun h1 => ?_⟩
  · rw [hst]
    exact get_status_match h1 h2 hd
  · rw [hst]
    exact get_status_mismatch h1 h2 hd
  · rw [hst]
    exact get_status_only1 h1 h2
  · rw [hst]
    exact get_status_only2 h1

/-- C2 witness: the status rules applied to the concrete matched demo row. -/
theorem claim2_witness :
    (⟨"5", some "Acme [5]", some "Acme", ⟨10000, 2⟩, ⟨10000, 2⟩, ⟨0, 2⟩,
      "MATCH"⟩ : DetailRow).status = "MATCH" :=
  (((claim2_status_rules "A" "B" demoRows1 demoRows2Eq).1
      ⟨"5", some "Acme [5]", some "Acme", ⟨10000, 2⟩, ⟨10000, 2⟩, ⟨0, 2⟩, "MATCH"⟩
      (by decide)).1 rfl rfl).1 (by norm_num [Dec.toRat])

/-- C3: each per-source aggregator drops rows whose identifier parse is
absent (they contribute nothing), emits exactly one output row per
distinct kept identifier, totals each group as the exact decimal sum of
its parsed amounts with absent amounts as zero, and takes the display
name of the first row of the group in scan order. -/
theorem claim3_aggregators (rows1 : List Row1) (rows2 : List Row2) :
    (∀ (r : Row1) (t : List Row1), parse_id_from_file1 (resolveRaw1 r) = none →
        prepare_file1 (r :: t) = prepare_file1 t)
    ∧ (∀ (r : Row2) (t : List Row2), parse_id_from_file2 r.raw_id = none →
        prepare_file2 (r :: t) = prepare_file2 t)
    ∧ ((prepare_file1 rows1).map (fun a => a.company_id)).Nodup
    ∧ ((prepare_file2 rows2).map (fun a => a.company_id)).Nodup
    ∧ (∀ k, k ∈ (prepare_file1 rows1).map (fun a => a.company_id) ↔
        k ∈ (srcRows1 rows1).map (fun r => r.id))
    ∧ (∀ k, k ∈ (prepare_file2 rows2).map (fun a => a.company_id) ↔
        k ∈ (srcRows2 rows2).map (fun r => r.id))
    ∧ (∀ a ∈ prepare_file1 rows1,
        a.amount.toRat = (((srcRows1 rows1).filter (fun r => r.id = a.company_id)).map
          (fun r => (r.amt.map Dec.toRat).getD 0)).sum
        ∧ some a.name = (((srcRows1 rows1).filter
            (fun r => r.id = a.company_id)).head?).map (fun r => r.name))
    ∧ (∀ a ∈ prepare_file2 rows2,
        a.amount.toRat = (((srcRows2 rows2).filter (fun r => r.id = a.company_id)).map
          (fun r => (r.amt.map Dec.toRat).getD 0)).sum
        ∧ some a.name = (((srcRows2 rows2).filter
            (fun r => r.id = a.company_id)).head?).map (fun r => r.name)) := by
  refine ⟨?_, ?_, nodup_aggregate_keys _, nodup_aggregate_keys _,
    fun k => mem_aggregate_keys, fun k => mem_aggregate_keys, ?_, ?_⟩
  · intro r t h
    unfold prepare_file1
    have hsrc : srcRows1 (r :: t) = srcRows1 t := by
      unfold srcRows1
      rw [List.filterMap_cons]
      simp [h]
    rw [hsrc]
  · intro r t h
    unfold prepare_file2
    have hsrc : srcRows2 (r :: t) = srcRows2 t := by
      unfold srcRows2
      rw [List.filterMap_cons]
      simp [h]
    rw [hsrc]
  · intro a ha
    have ha' : a ∈ aggregate (srcRows1 rows1) := ha
    unfold aggregate at ha'
    rcases List.mem_map.mp ha' with ⟨k, hk, hka⟩
    subst hka
    constructor
    · show (groupSum (srcRows1 rows1) k).toRat = _
      exact groupSum_toRat (srcRows1 rows1) k
    · show some (firstName (srcRows1 rows1) k) = _
      apply firstName_eq
      rw [← List.mem_dedup, ← mem_sortKeys]
      exact hk
  · intro a ha
    have ha' : a ∈ aggregate (srcRows2 rows2) := ha
    unfold aggregate at ha'
    rcases List.mem_map.mp ha' with ⟨k, hk, hka⟩
    subst hka
    constructor
    · show (groupSum (srcRows2 rows2) k).toRat = _
      exact groupSum_toRat (srcRows2 rows2) k
    · show some (firstName (srcRows2 rows2) k) = _
      apply firstName_eq
      rw [← List.mem_dedup, ← mem_sortKeys]
      exact hk

/-- C3 witness: a row without a bracketed identifier is dropped, and the
demo aggregation totals the single kept row. -/
theorem claim3_witness :
    prepare_file1 [⟨Cell.absent, Cell.val "no brackets", Cell.val "5"⟩] =
      prepare_file1 ([] : List Row1) :=
  (claim3_aggregators [] []).1 ⟨Cell.absent, Cell.val "no brackets", Cell.val "5"⟩ []
    (by decide)

/-- Field equations of a summary row. -/
theorem summary_fields (detail : List DetailRow) {srow : SummaryRow}
    (h : srow ∈ summaryTable detail) :
    srow.rows = (detail.filter (fun r => r.status = srow.status)).length
    ∧ srow.total_amount_1 =
        sumDec ((detail.filter (fun r => r.status = srow.status)).map (fun r => r.amount_1))
    ∧ srow.total_amount_2 =
        sumDec ((detail.filter (fun r => r.status = srow.status)).map (fun r => r.amount_2))
    ∧ srow.total_delta =
        sumDec ((detail.filter (fun r => r.status = srow.status)).map (fun r => r.delta)) := by
  unfold summaryTable at h
  rcases List.mem_map.mp h with ⟨st, hst, hmk⟩
  subst hmk
  exact ⟨rfl, rfl, rfl, rfl⟩

/-- The per-status row counts add up to the number of detail rows. -/
theorem summary_rows_sum (detail : List DetailRow) :
    ((summaryTable detail).map (fun s => s.rows)).sum = detail.length := by
  unfold summaryTable
  rw [List.map_map]
  have hstep : ((fun s : SummaryRow => s.rows) ∘ (fun st =>
      (⟨st, (detail.filter (fun r => r.status = st)).length,
        sumDec ((detail.filter (fun r => r.status = st)).map (fun r => r.amount_1)),
        sumDec ((detail.filter (fun r => r.status = st)).map (fun r => r.amount_2)),
        sumDec ((detail.filter (fun r => r.status = st)).map (fun r => r.delta))⟩ :
          SummaryRow))) =
      (fun st => (detail.filter (fun r => r.status = st)).length) := rfl
  rw [hstep]
  exact length_eq_sum_counts (fun r => r.status) detail _
    (nodup_sortKeys (List.nodup_dedup _))
    (fun r hr => mem_sortKeys.mpr (List.mem_dedup.mpr (List.mem_map.mpr ⟨r, hr, rfl⟩)))

/-- C9: detail rows are sorted ascending by the identifier's string
representation (so `"10"` sorts before `"2"`); the summary holds exactly
one row per distinct status — with that group's row count and the exact
decimal sums of the two amounts and the delta — sorted ascending by
status, and the per-status counts add up to the detail row count. -/
theorem claim9_sort_and_summary (f1 f2 : String) (rows1 : List Row1) (rows2 : List Row2) :
    ((compare f1 f2 rows1 rows2).1.map (fun r => r.company_id)).Sorted (· ≤ ·)
    ∧ ((compare f1 f2 rows1 rows2).2.map (fun s => s.status)).Sorted (· ≤ ·)
    ∧ ((compare f1 f2 rows1 rows2).2.map (fun s => s.status)).Nodup
    ∧ (∀ st : String, st ∈ (compare f1 f2 rows1 rows2).2.map (fun s => s.status) ↔
        st ∈ (compare f1 f2 rows1 rows2).1.map (fun r => r.status))
    ∧ (∀ srow ∈ (compare f1 f2 rows1 rows2).2,
        srow.rows = ((compare f1 f2 rows1 rows2).1.filter
            (fun r => r.status = srow.status)).length
        ∧ srow.total_amount_1.toRat = (((compare f1 f2 rows1 rows2).1.filter
            (fun r => r.status = srow.status)).map (fun r => r.amount_1.toRat)).sum
        ∧ srow.total_amount_2.toRat = (((compare f1 f2 rows1 rows2).1.filter
            (fun r => r.status = srow.status)).map (fun r => r.amount_2.toRat)).sum
        ∧ srow.total_delta.toRat = (((compare f1 f2 rows1 rows2).1.filter
            (fun r => r.status = srow.status)).map (fun r => r.delta.toRat)).sum)
    ∧ ((compare f1 f2 rows1 rows2).2.map (fun s => s.rows)).sum =
        (compare f1 f2 rows1 rows2).1.length
    ∧ sortKeys ["2", "10"] = ["10", "2"] := by
  have hd : (compare f1 f2 rows1 rows2).1 =
      detailTable f1 f2 (prepare_file1 rows1) (prepare_file2 rows2) := rfl
  have hs : (compare f1 f2 rows1 rows2).2 =
      summaryTable (detailTable f1 f2 (prepare_file1 rows1) (prepare_file2 rows2)) := rfl
  refine ⟨?_, ?_, ?_, ?_, ?_, ?_, by decide⟩
  · rw [hd, detailTable_keys]
    exact sorted_sortKeys _
  · rw [hs, summaryTable_keys]
    exact sorted_sortKeys _
  · rw [hs, summaryTable_keys]
    exact nodup_sortKeys (List.nodup_dedup _)
  · intro st
    rw [hs, summaryTable_keys, mem_sortKeys, List.mem_dedup, hd]
  · intro srow hsrow
    rw [hs] at hsrow
    obtain ⟨h1, h2, h3, h4⟩ := summary_fields _ hsrow
    rw [hd]
    refine ⟨h1, ?_, ?_, ?_⟩
    · rw [h2, sumDec_toRat, List.map_map]
      rfl
    · rw [h3, sumDec_toRat, List.map_map]
      rfl
    · rw [h4, sumDec_toRat, List.map_map]
      rfl
  · rw [hd, hs]
    exact summary_rows_sum _

/-- C9 witness: on the demo tables the `MATCH` summary row counts exactly
the `MATCH` detail rows. -/
theorem claim9_witness :
    (⟨"MATCH", 1, ⟨10000, 2⟩, ⟨10000, 2⟩, ⟨0, 2⟩⟩ : SummaryRow).rows =
      ((compare "A" "B" demoRows1 demoRows2Eq).1.filter
        (fun r => r.status = "MATCH")).length := by
  have h := ((claim9_sort_and_summary "A" "B" demoRows1 demoRows2Eq).2.2.2.2.1
    ⟨"MATCH", 1, ⟨10000, 2⟩, ⟨10000, 2⟩, ⟨0, 2⟩⟩ (by decide)).1
  exact h

/-- Mapping a function over an option keeps its presence. -/
theorem isSome_map_opt {α β : Type} (f : α → β) (o : Option α) :
    (o.map f).isSome = o.isSome := by
  cases o <;> rfl

/-- C10: a detail row's source-A name is present exactly when its
identifier occurs in the aggregated source-A table (symmetrically for
source B), so `only_file_<label>` is assigned exactly when the identifier
appears in exactly one source; a row whose identifier is present in a
source but whose name cells are all blank still counts as present there,
because the aggregator stringifies the missing name into the non-absent
string `"nan"`. -/
theorem claim10_presence_iff (f1 f2 : String) (rows1 : List Row1) (rows2 : List Row2) :
    (∀ r ∈ (compare f1 f2 rows1 rows2).1,
      (r.company_name_1.isSome = true ↔
        r.company_id ∈ (prepare_file1 rows1).map (fun a => a.company_id))
      ∧ (r.company_name_2.isSome = true ↔
        r.company_id ∈ (prepare_file2 rows2).map (fun a => a.company_id))
      ∧ (r.company_name_1.isSome = true → r.company_name_2.isSome = true →
          r.status = "MATCH" ∨ r.status = "MISMATCH")
      ∧ (r.company_name_1.isSome = true → r.company_name_2 = none →
          r.status = "only_file_" ++ f1)
      ∧ (r.company_name_1 = none → r.status = "only_file_" ++ f2))
    ∧ (compare "A" "B" [] [⟨Cell.val "7", Cell.absent, Cell.absent, Cell.absent⟩]).1 =
        [⟨"7", none, some "nan", ⟨0, 0⟩, ⟨0, 0⟩, ⟨0, 0⟩, "only_file_B"⟩] := by
  refine ⟨?_, by decide⟩
  intro r hr
  have hr' : r ∈ detailTable f1 f2 (prepare_file1 rows1) (prepare_file2 rows2) := hr
  obtain ⟨hn1, hn2, -, -, -, hst⟩ :=
    detail_fields f1 f2 (prepare_file1 rows1) (prepare_file2 rows2) hr'
  refine ⟨?_, ?_, ?_, fun h1 h2 => by rw [hst]; exact get_status_only1 h1 h2,
    fun h1 => by rw [hst]; exact get_status_only2 h1⟩
  · rw [hn1, isSome_map_opt]
    exact findAgg_isSome_iff
  · rw [hn2, isSome_map_opt]
    exact findAgg_isSome_iff
  · intro h1 h2
    rw [hst]
    unfold get_status
    rw [h1, h2]
    by_cases hb : (r.delta.beq Dec.zero) = true
    · left
      simp [hb]
    · right
      simp [hb]

/-- C10 witness: the blank-name scenario's detail row carries the
`only_file_` status of the present source. -/
theorem claim10_witness :
    (⟨"7", none, some "nan", ⟨0, 0⟩, ⟨0, 0⟩, ⟨0, 0⟩,
      "only_file_B"⟩ : DetailRow).status = "only_file_" ++ "B" :=
  ((claim10_presence_iff "A" "B" []
      [⟨Cell.val "7", Cell.absent, Cell.absent, Cell.absent⟩]).1
    ⟨"7", none, some "nan", ⟨0, 0⟩, ⟨0, 0⟩, ⟨0, 0⟩, "only_file_B"⟩
    (by decide)).2.2.2.2 rfl

end ComparePayments
